import Mathlib

/-!
Verification of `pyomo/contrib/preprocessing/plugins/bounds_to_vars.py`
(`ConstraintToVarBoundTransform`), a pass that turns single-variable linear
constraints into variable bounds and deactivates them.

Numbers are modelled by `ℚ`.  A variable carries an optional lower bound,
optional upper bound and optional current value; a constraint carries the
standard representation of its body (`generate_standard_repn(constr.body)`),
optional lower/upper constraint bounds, and an active flag.  The model is a
list of variables (referenced by index from constraints) and a list of
constraints; `_apply_to` is the left-to-right traversal of the constraint
list, threading the variable store through each step.
-/

namespace BoundsToVars

/-- A Pyomo variable as the pass sees it: `var.lb`, `var.ub`, `var.value`,
each possibly absent. -/
structure Var where
  lb : Option ℚ
  ub : Option ℚ
  value : Option ℚ
  deriving Repr, DecidableEq

instance : Inhabited Var := ⟨⟨none, none, none⟩⟩

/-- The result of `generate_standard_repn(constr.body)` restricted to the
fields the pass reads: `is_linear()`, `linear_vars` (indices into the model's
variable store), `linear_coefs`, and `constant`. -/
structure Repn where
  is_linear : Bool
  linear_vars : List Nat
  linear_coefs : List ℚ
  constant : ℚ
  deriving Repr, DecidableEq

/-- A constraint: its body's standard representation, the optional numeric
lower and upper constraint bounds, and the active flag. -/
structure Constr where
  repn : Repn
  lower : Option ℚ
  upper : Option ℚ
  active : Bool
  deriving Repr, DecidableEq

/-- A model: a variable store and a constraint list. -/
structure Model where
  vars : List Var
  constrs : List Constr
  deriving Repr, DecidableEq

/-- Python's `abs`, written out so that it evaluates by kernel reduction. -/
def rabs (q : ℚ) : ℚ := if q < 0 then -q else q

/-- Modelled from the spec: the degeneracy test `isclose(coef, 0)` comes from
the external `pyutilib` library (not part of this repository); following §9 of
the spec the implicit tolerance is made an explicit parameter `eps`, so the
test reads: the coefficient is within distance `eps` of zero. -/
def isclose (eps a b : ℚ) : Bool := rabs (a - b) ≤ eps

/-- `var.setlb(b)`. -/
def setlb (v : Var) (b : Option ℚ) : Var := { v with lb := b }

/-- `var.setub(b)`. -/
def setub (v : Var) (b : Option ℚ) : Var := { v with ub := b }

/-- `var.set_value(x)`. -/
def set_value (v : Var) (x : ℚ) : Var := { v with value := some x }

/-- Lines 58-77 of the source: derive the implied bound from each present side
of the constraint and fold it into the variable, sequentially (the lower-bound
step reads the variable as left by the upper-bound step). -/
def deriveBound (coef const : ℚ) (lower upper : Option ℚ) (v : Var) : Var :=
  let v1 :=
    match upper with
    | some u0 =>
        let newbound := (u0 - const) / coef
        if 0 < coef then
          setub v (some (match v.ub with
            | some u => min u newbound
            | none => newbound))
        else if coef < 0 then
          setlb v (some (match v.lb with
            | some l => max l newbound
            | none => newbound))
        else v
    | none => v
  match lower with
  | some l0 =>
      let newbound := (l0 - const) / coef
      if 0 < coef then
        setlb v1 (some (match v1.lb with
          | some l => max l newbound
          | none => newbound))
      else if coef < 0 then
        setub v1 (some (match v1.ub with
          | some u => min u newbound
          | none => newbound))
      else v1
  | none => v1

/-- Lines 86-91 of the source: after deactivation, shift the variable's value
back inside its bounds — first raise it to the lower bound if it lies below,
then drop it to the upper bound if it lies above. -/
def valueRepair (v : Var) : Var :=
  let v1 :=
    match v.lb, v.value with
    | some l, some x => if x < l then set_value v l else v
    | _, _ => v
  match v1.ub, v1.value with
  | some u, some x => if u < x then set_value v1 u else v1
  | _, _ => v1

/-- One iteration of the `_apply_to` loop on one constraint: if the constraint
is active (the traversal only yields active constraints), its body is linear
and references exactly one variable, then (unless the coefficient is
degenerate) fold the implied bounds into that variable, deactivate the
constraint, and repair the variable's value; otherwise leave everything
untouched. -/
def processConstr (eps : ℚ) (vs : List Var) (c : Constr) : List Var × Constr :=
  if c.active && c.repn.is_linear && (c.repn.linear_vars.length == 1) then
    let vi := c.repn.linear_vars.getD 0 0
    let const := c.repn.constant
    let coef := c.repn.linear_coefs.getD 0 0
    let var0 := vs.getD vi default
    let var1 := if isclose eps coef 0 then var0
                else deriveBound coef const c.lower c.upper var0
    let var2 := valueRepair var1
    (vs.set vi var2, { c with active := false })
  else
    (vs, c)

/-- The `_apply_to` traversal over the constraint list, threading the variable
store left to right. -/
def applyToAux (eps : ℚ) : List Var → List Constr → List Var × List Constr
  | vs, [] => (vs, [])
  | vs, c :: cs =>
      let p := processConstr eps vs c
      let q := applyToAux eps p.1 cs
      (q.1, p.2 :: q.2)

/-- `ConstraintToVarBoundTransform._apply_to(model)`. -/
def applyTo (eps : ℚ) (m : Model) : Model :=
  ⟨(applyToAux eps m.vars m.constrs).1, (applyToAux eps m.vars m.constrs).2⟩

/-- `model.clone()`: a deep copy, which for the pure model is the value
itself. -/
def clone (m : Model) : Model := m

/-- `ConstraintToVarBoundTransform._create_using(model)`: clone the model,
apply the pass to the clone, return it.  The result pairs the state of the
input model after the call with the returned new model. -/
def createUsing (eps : ℚ) (model : Model) : Model × Model :=
  let m := clone model
  let m2 := applyTo eps m
  (model, m2)

/-- The variable at index `i` of the model's store (an absent index reads as
the bound-free, value-free variable). -/
def Model.varAt (m : Model) (i : Nat) : Var := m.vars.getD i default

/-- Combine an optional new lower-bound candidate into an optional existing
lower bound the way lines 65-67 and 71-73 do: `max` when both exist. -/
def tightLb : Option ℚ → Option ℚ → Option ℚ
  | none, old => old
  | some b, some l => some (max l b)
  | some b, none => some b

/-- Combine an optional new upper-bound candidate into an optional existing
upper bound the way lines 61-63 and 75-77 do: `min` when both exist. -/
def tightUb : Option ℚ → Option ℚ → Option ℚ
  | none, old => old
  | some b, some u => some (min u b)
  | some b, none => some b

/-- The lower-bound candidate a non-degenerate single-variable constraint
contributes: from the lower side when the coefficient is positive, from the
upper side when it is negative. -/
def lbCand (coef const : ℚ) (lower upper : Option ℚ) : Option ℚ :=
  if 0 < coef then lower.map (fun b => (b - const) / coef)
  else if coef < 0 then upper.map (fun b => (b - const) / coef)
  else none

/-- The upper-bound candidate a non-degenerate single-variable constraint
contributes: from the upper side when the coefficient is positive, from the
lower side when it is negative. -/
def ubCand (coef const : ℚ) (lower upper : Option ℚ) : Option ℚ :=
  if 0 < coef then upper.map (fun b => (b - const) / coef)
  else if coef < 0 then lower.map (fun b => (b - const) / coef)
  else none

/-- Value feasibility of a variable: its value (when present) does not exceed
a present upper bound, and is at least a present lower bound whenever the
bounds are compatible. -/
def ValOk (v : Var) : Prop :=
  (∀ x u, v.value = some x → v.ub = some u → x ≤ u) ∧
  (∀ x l, v.value = some x → v.lb = some l → (∀ u, v.ub = some u → l ≤ u) → l ≤ x)

/-- Two variable stores of equal length that agree on every variable's lower
and upper bound (values may differ). -/
def BndsEq (vs ws : List Var) : Prop :=
  vs.length = ws.length ∧
  ∀ i, (vs.getD i default).lb = (ws.getD i default).lb ∧
    (vs.getD i default).ub = (ws.getD i default).ub

/-- The lower-bound candidate a constraint contributes when processed as a
single-variable candidate (none when the coefficient is degenerate). -/
def constrLbCand (eps : ℚ) (c : Constr) : Option ℚ :=
  if isclose eps (c.repn.linear_coefs.getD 0 0) 0 then none
  else lbCand (c.repn.linear_coefs.getD 0 0) c.repn.constant c.lower c.upper

/-- The upper-bound candidate a constraint contributes when processed as a
single-variable candidate (none when the coefficient is degenerate). -/
def constrUbCand (eps : ℚ) (c : Constr) : Option ℚ :=
  if isclose eps (c.repn.linear_coefs.getD 0 0) 0 then none
  else ubCand (c.repn.linear_coefs.getD 0 0) c.repn.constant c.lower c.upper

example :
    processConstr 0 [⟨none, none, none⟩]
      ⟨⟨true, [0], [2], 1⟩, none, some 5, true⟩ =
    ([⟨none, some 2, none⟩], ⟨⟨true, [0], [2], 1⟩, none, some 5, false⟩) := by
  with_unfolding_all decide

example :
    processConstr 0 [⟨none, none, none⟩]
      ⟨⟨true, [0], [-3], 0⟩, none, some 6, true⟩ =
    ([⟨some (-2), none, none⟩], ⟨⟨true, [0], [-3], 0⟩, none, some 6, false⟩) := by
  with_unfolding_all decide

/-! Basic lemmas about the single-variable update. -/

theorem valueRepair_lb (v : Var) : (valueRepair v).lb = v.lb := by
  obtain ⟨lb, ub, val⟩ := v
  cases lb <;> cases ub <;> cases val <;>
    simp only [valueRepair, set_value] <;>
    (repeat' split) <;> rfl

theorem valueRepair_ub (v : Var) : (valueRepair v).ub = v.ub := by
  obtain ⟨lb, ub, val⟩ := v
  cases lb <;> cases ub <;> cases val <;>
    simp only [valueRepair, set_value] <;>
    (repeat' split) <;> rfl

theorem deriveBound_lb (coef const : ℚ) (lo up : Option ℚ) (v : Var) :
    (deriveBound coef const lo up v).lb = tightLb (lbCand coef const lo up) v.lb := by
  obtain ⟨lb, ub, val⟩ := v
  rcases lt_trichotomy coef 0 with h | h | h <;>
    cases lo <;> cases up <;> cases lb <;> cases ub <;>
    simp [deriveBound, tightLb, lbCand, setlb, setub, h, h.not_lt, lt_irrefl]

theorem deriveBound_ub (coef const : ℚ) (lo up : Option ℚ) (v : Var) :
    (deriveBound coef const lo up v).ub = tightUb (ubCand coef const lo up) v.ub := by
  obtain ⟨lb, ub, val⟩ := v
  rcases lt_trichotomy coef 0 with h | h | h <;>
    cases lo <;> cases up <;> cases lb <;> cases ub <;>
    simp [deriveBound, tightUb, ubCand, setlb, setub, h, h.not_lt, lt_irrefl]

theorem deriveBound_value (coef const : ℚ) (lo up : Option ℚ) (v : Var) :
    (deriveBound coef const lo up v).value = v.value := by
  obtain ⟨lb, ub, val⟩ := v
  rcases lt_trichotomy coef 0 with h | h | h <;>
    cases lo <;> cases up <;> cases lb <;> cases ub <;>
    simp [deriveBound, setlb, setub, h, h.not_lt, lt_irrefl]

/-! Lemmas describing one loop iteration. -/

theorem processConstr_candidate (eps : ℚ) (vs : List Var) (c : Constr) (vi : Nat)
    (hact : c.active = true) (hlin : c.repn.is_linear = true)
    (hvars : c.repn.linear_vars = [vi]) :
    processConstr eps vs c =
      (vs.set vi (valueRepair
          (if isclose eps (c.repn.linear_coefs.getD 0 0) 0 then vs.getD vi default
            else deriveBound (c.repn.linear_coefs.getD 0 0) c.repn.constant
              c.lower c.upper (vs.getD vi default))),
        { c with active := false }) := by
  unfold processConstr
  simp [hact, hlin, hvars]

theorem processConstr_not_candidate (eps : ℚ) (vs : List Var) (c : Constr)
    (h : (c.active && c.repn.is_linear && (c.repn.linear_vars.length == 1)) = false) :
    processConstr eps vs c = (vs, c) := by
  unfold processConstr
  simp [h]

theorem processConstr_snd_not_active_candidate (eps : ℚ) (vs : List Var) (c : Constr) :
    ((processConstr eps vs c).2.active && (processConstr eps vs c).2.repn.is_linear &&
      ((processConstr eps vs c).2.repn.linear_vars.length == 1)) = false := by
  unfold processConstr
  split
  · simp
  · next h => simpa using h

theorem processConstr_length (eps : ℚ) (vs : List Var) (c : Constr) :
    (processConstr eps vs c).1.length = vs.length := by
  unfold processConstr
  split <;> simp

theorem applyToAux_cons (eps : ℚ) (vs : List Var) (c : Constr) (cs : List Constr) :
    applyToAux eps vs (c :: cs) =
      ((applyToAux eps (processConstr eps vs c).1 cs).1,
        (processConstr eps vs c).2 :: (applyToAux eps (processConstr eps vs c).1 cs).2) := rfl

/-! Lemmas about reading and writing the variable store. -/

theorem getD_set_self (l : List Var) (i : Nat) (a : Var) (h : i < l.length) :
    (l.set i a).getD i default = a := by
  simp [List.getD_eq_getElem?_getD, List.getElem?_set_eq_of_lt a h]

theorem getD_set_ne (l : List Var) (i j : Nat) (a : Var) (h : i ≠ j) :
    (l.set i a).getD j default = l.getD j default := by
  simp [List.getD_eq_getElem?_getD, List.getElem?_set_ne h]

theorem processConstr_candidate_getD (eps : ℚ) (vs : List Var) (c : Constr) (vi : Nat)
    (hact : c.active = true) (hlin : c.repn.is_linear = true)
    (hvars : c.repn.linear_vars = [vi]) (hvi : vi < vs.length) :
    (processConstr eps vs c).1.getD vi default =
      valueRepair (if isclose eps (c.repn.linear_coefs.getD 0 0) 0 then vs.getD vi default
        else deriveBound (c.repn.linear_coefs.getD 0 0) c.repn.constant
          c.lower c.upper (vs.getD vi default)) := by
  rw [processConstr_candidate eps vs c vi hact hlin hvars]
  exact getD_set_self _ _ _ hvi

/-- The update a loop iteration performs on the variable at any index: either
the variable is untouched, or (when it is the referenced variable of a
processed constraint) it becomes the value-repaired result of the optional
bound derivation. -/
theorem processConstr_fst_getD (eps : ℚ) (vs : List Var) (c : Constr) (i : Nat) :
    (processConstr eps vs c).1.getD i default = vs.getD i default ∨
    (processConstr eps vs c).1.getD i default =
      valueRepair (if isclose eps (c.repn.linear_coefs.getD 0 0) 0 then vs.getD i default
        else deriveBound (c.repn.linear_coefs.getD 0 0) c.repn.constant
          c.lower c.upper (vs.getD i default)) := by
  by_cases hc : (c.active && c.repn.is_linear && (c.repn.linear_vars.length == 1)) = true
  · simp only [Bool.and_eq_true, beq_iff_eq] at hc
    obtain ⟨⟨hact, hlin⟩, hlen⟩ := hc
    obtain ⟨vi, hvars⟩ := List.length_eq_one.mp hlen
    rw [processConstr_candidate eps vs c vi hact hlin hvars]
    rcases eq_or_ne i vi with rfl | hne
    · rcases lt_or_le i vs.length with hlt | hle
      · right
        rw [getD_set_self _ _ _ hlt]
      · left
        rw [List.set_eq_of_length_le hle]
    · left
      exact getD_set_ne _ _ _ _ (Ne.symm hne)
  · left
    rw [processConstr_not_candidate eps vs c (Bool.not_eq_true _ ▸ hc)]

/-! Monotone-tightening lemmas for the bound combinators. -/

theorem tightLb_tighter (cand : Option ℚ) (x : ℚ) (old : Option ℚ) (h : old = some x) :
    ∃ y, tightLb cand old = some y ∧ x ≤ y := by
  cases cand with
  | none => exact ⟨x, by simp [tightLb, h]⟩
  | some b => exact ⟨max x b, by simp [tightLb, h], le_max_left x b⟩

theorem tightUb_tighter (cand : Option ℚ) (x : ℚ) (old : Option ℚ) (h : old = some x) :
    ∃ y, tightUb cand old = some y ∧ y ≤ x := by
  cases cand with
  | none => exact ⟨x, by simp [tightUb, h]⟩
  | some b => exact ⟨min x b, by simp [tightUb, h], min_le_left x b⟩

theorem processConstr_lb_tighter (eps : ℚ) (vs : List Var) (c : Constr) (i : Nat) (x : ℚ)
    (h : (vs.getD i default).lb = some x) :
    ∃ y, ((processConstr eps vs c).1.getD i default).lb = some y ∧ x ≤ y := by
  rcases processConstr_fst_getD eps vs c i with heq | heq
  · exact ⟨x, by rw [heq, h], le_refl x⟩
  · rw [heq, valueRepair_lb]
    split
    · exact ⟨x, h, le_refl x⟩
    · rw [deriveBound_lb]
      exact tightLb_tighter _ x _ h

theorem processConstr_ub_tighter (eps : ℚ) (vs : List Var) (c : Constr) (i : Nat) (x : ℚ)
    (h : (vs.getD i default).ub = some x) :
    ∃ y, ((processConstr eps vs c).1.getD i default).ub = some y ∧ y ≤ x := by
  rcases processConstr_fst_getD eps vs c i with heq | heq
  · exact ⟨x, by rw [heq, h], le_refl x⟩
  · rw [heq, valueRepair_ub]
    split
    · exact ⟨x, h, le_refl x⟩
    · rw [deriveBound_ub]
      exact tightUb_tighter _ x _ h

/-! Clamping behaviour of the value-repair step. -/

theorem valueRepair_value_low (v : Var) (x l : ℚ) (hval : v.value = some x)
    (hlb : v.lb = some l) (hx : x < l) (hcompat : ∀ u, v.ub = some u → l ≤ u) :
    (valueRepair v).value = some l := by
  obtain ⟨lb, ub, val⟩ := v
  cases lb <;> cases val <;> simp_all
  cases ub with
  | none => simp [valueRepair, set_value, hx]
  | some u =>
      have hu : l ≤ u := hcompat u rfl
      simp [valueRepair, set_value, hx, not_lt.mpr hu]

theorem valueRepair_value_high (v : Var) (x u : ℚ) (hval : v.value = some x)
    (hub : v.ub = some u) (hx : u < x) :
    (valueRepair v).value = some u := by
  obtain ⟨lb, ub, val⟩ := v
  cases ub <;> cases val <;> simp_all
  cases lb with
  | none => simp [valueRepair, set_value, hx]
  | some l =>
      by_cases hl : x < l
      · have : u < l := lt_trans hx hl
        simp [valueRepair, set_value, hl, this]
      · simp [valueRepair, set_value, hl, hx]

/-! Claim theorems about a single loop iteration. -/

/-- C1: for an active constraint whose body is linear in exactly the variable
at index `vi` with a coefficient the degeneracy test does not flag, the pass
updates that variable's bounds exactly as specified: with an upper constraint
bound `u0`, a positive coefficient tightens the variable's upper bound to
`min(existing ub, (u0 - const)/coef)` (just `(u0 - const)/coef` when no upper
bound existed) and a negative coefficient tightens the lower bound by `max`
with the same quotient; a lower constraint bound `l0` acts symmetrically. -/
theorem c1_single_var_bound_update (eps coef : ℚ) (vs : List Var) (c : Constr) (vi : Nat)
    (hact : c.active = true) (hlin : c.repn.is_linear = true)
    (hvars : c.repn.linear_vars = [vi]) (hcoefs : c.repn.linear_coefs = [coef])
    (hvi : vi < vs.length) (hdeg : isclose eps coef 0 = false) :
    (∀ u0, c.upper = some u0 → 0 < coef →
      ((processConstr eps vs c).1.getD vi default).ub =
        tightUb (some ((u0 - c.repn.constant) / coef)) ((vs.getD vi default).ub)) ∧
    (∀ u0, c.upper = some u0 → coef < 0 →
      ((processConstr eps vs c).1.getD vi default).lb =
        tightLb (some ((u0 - c.repn.constant) / coef)) ((vs.getD vi default).lb)) ∧
    (∀ l0, c.lower = some l0 → 0 < coef →
      ((processConstr eps vs c).1.getD vi default).lb =
        tightLb (some ((l0 - c.repn.constant) / coef)) ((vs.getD vi default).lb)) ∧
    (∀ l0, c.lower = some l0 → coef < 0 →
      ((processConstr eps vs c).1.getD vi default).ub =
        tightUb (some ((l0 - c.repn.constant) / coef)) ((vs.getD vi default).ub)) := by
  have hvar : (processConstr eps vs c).1.getD vi default =
      valueRepair (deriveBound coef c.repn.constant c.lower c.upper (vs.getD vi default)) := by
    rw [processConstr_candidate_getD eps vs c vi hact hlin hvars hvi, hcoefs]
    simp [hdeg]
  refine ⟨?_, ?_, ?_, ?_⟩
  · intro u0 hu hsign
    rw [hvar, valueRepair_ub, deriveBound_ub]
    simp [ubCand, hsign, hu]
  · intro u0 hu hsign
    rw [hvar, valueRepair_lb, deriveBound_lb]
    simp [lbCand, hsign, hsign.not_lt, hu]
  · intro l0 hl hsign
    rw [hvar, valueRepair_lb, deriveBound_lb]
    simp [lbCand, hsign, hl]
  · intro l0 hl hsign
    rw [hvar, valueRepair_ub, deriveBound_ub]
    simp [ubCand, hsign, hsign.not_lt, hl]

/-- Witness for C1: the constraint `2*x + 1 <= 5` on a bound-free variable. -/
theorem c1_witness :
    ((processConstr 0 [⟨none, none, none⟩]
        ⟨⟨true, [0], [2], 1⟩, none, some 5, true⟩).1.getD 0 default).ub =
      tightUb (some (((5 : ℚ) - 1) / 2)) none :=
  (c1_single_var_bound_update 0 2 [⟨none, none, none⟩]
      ⟨⟨true, [0], [2], 1⟩, none, some 5, true⟩ 0 rfl rfl rfl rfl
      (by decide) (by with_unfolding_all decide)).1 5 rfl (by with_unfolding_all decide)

/-- C4: a single-variable linear constraint whose coefficient has absolute
value below the tolerance `eps` contributes no bound — no variable's bounds
change when it is processed — yet the constraint is still deactivated. -/
theorem c4_degenerate_coef_no_bound (eps coef : ℚ) (vs : List Var) (c : Constr) (vi : Nat)
    (hact : c.active = true) (hlin : c.repn.is_linear = true)
    (hvars : c.repn.linear_vars = [vi]) (hcoefs : c.repn.linear_coefs = [coef])
    (hdeg : rabs coef < eps) :
    (∀ i, ((processConstr eps vs c).1.getD i default).lb = (vs.getD i default).lb ∧
      ((processConstr eps vs c).1.getD i default).ub = (vs.getD i default).ub) ∧
    (processConstr eps vs c).2.active = false := by
  have hic : isclose eps coef 0 = true := by
    simp only [isclose, sub_zero, decide_eq_true_eq]
    exact hdeg.le
  constructor
  · intro i
    rcases processConstr_fst_getD eps vs c i with heq | heq
    · rw [heq]
      exact ⟨rfl, rfl⟩
    · rw [hcoefs] at heq
      simp only [List.getD_cons_zero, hic, if_true] at heq
      rw [heq]
      exact ⟨valueRepair_lb _, valueRepair_ub _⟩
  · rw [processConstr_candidate eps vs c vi hact hlin hvars]

/-- Witness for C4: the constraint `0*x + 5 <= 10` with tolerance `1e-8`,
against a variable with bounds `[1, 3]`. -/
theorem c4_witness :
    ((processConstr (1/100000000) [⟨some 1, some 3, none⟩]
        ⟨⟨true, [0], [0], 5⟩, none, some 10, true⟩).1.getD 0 default).lb =
      (([⟨some 1, some 3, none⟩] : List Var).getD 0 default).lb ∧
    ((processConstr (1/100000000) [⟨some 1, some 3, none⟩]
        ⟨⟨true, [0], [0], 5⟩, none, some 10, true⟩).1.getD 0 default).ub =
      (([⟨some 1, some 3, none⟩] : List Var).getD 0 default).ub ∧
    (processConstr (1/100000000) [⟨some 1, some 3, none⟩]
        ⟨⟨true, [0], [0], 5⟩, none, some 10, true⟩).2.active = false := by
  have h := c4_degenerate_coef_no_bound (1/100000000) 0 [⟨some 1, some 3, none⟩]
    ⟨⟨true, [0], [0], 5⟩, none, some 10, true⟩ 0 rfl rfl rfl rfl
    (by with_unfolding_all decide)
  exact ⟨(h.1 0).1, (h.1 0).2, h.2⟩

/-- C5: a constraint that is not linear, or whose linear form references two
or more distinct variables, is left entirely untouched by a loop iteration:
the variable store and the constraint itself (active flag included) are
returned unchanged. -/
theorem not_candidate_of_nonlinear_or_multivar (c : Constr)
    (h : c.repn.is_linear = false ∨ 2 ≤ c.repn.linear_vars.length) :
    (c.active && c.repn.is_linear && (c.repn.linear_vars.length == 1)) = false := by
  rcases h with h | h
  · simp [h]
  · have hne : c.repn.linear_vars.length ≠ 1 := by omega
    simp [hne]

theorem applyToAux_snd_not_candidate (eps : ℚ) (cs : List Constr) :
    ∀ (vs : List Var) (j : Nat) (c : Constr), cs[j]? = some c →
      (c.active && c.repn.is_linear && (c.repn.linear_vars.length == 1)) = false →
      (applyToAux eps vs cs).2[j]? = some c := by
  induction cs with
  | nil =>
      intro vs j c h
      simp at h
  | cons c0 cs ih =>
      intro vs j c h hnc
      cases j with
      | zero =>
          simp only [List.getElem?_cons_zero, Option.some_inj] at h
          subst h
          simp only [applyToAux_cons, List.getElem?_cons_zero,
            processConstr_not_candidate eps vs c0 hnc]
      | succ j =>
          simp only [List.getElem?_cons_succ] at h
          simp only [applyToAux_cons, List.getElem?_cons_succ]
          exact ih (processConstr eps vs c0).1 j c h hnc

/-- C5: a constraint that is not linear, or whose linear form references two
or more distinct variables, is left entirely untouched: a loop iteration on it
returns the variable store and the constraint itself (active flag and bounds
included) unchanged, and after the whole pass the constraint is still present,
unchanged, at its position in any model containing it. -/
theorem c5_non_candidate_untouched (eps : ℚ) (vs : List Var) (c : Constr)
    (h : c.repn.is_linear = false ∨ 2 ≤ c.repn.linear_vars.length) :
    processConstr eps vs c = (vs, c) ∧
    ∀ (m : Model) (j : Nat), m.constrs[j]? = some c →
      (applyTo eps m).constrs[j]? = some c := by
  constructor
  · exact processConstr_not_candidate eps vs c (not_candidate_of_nonlinear_or_multivar c h)
  · intro m j hj
    exact applyToAux_snd_not_candidate eps m.constrs m.vars j c hj
      (not_candidate_of_nonlinear_or_multivar c h)

/-- Witness for C5: the two-variable constraint `x + y <= 4` is untouched by
its loop iteration and still present, active and unchanged, after the pass. -/
theorem c5_witness :
    (processConstr 0 [⟨none, none, none⟩, ⟨none, none, none⟩]
        ⟨⟨true, [0, 1], [1, 1], 0⟩, none, some 4, true⟩ =
      ([⟨none, none, none⟩, ⟨none, none, none⟩],
        ⟨⟨true, [0, 1], [1, 1], 0⟩, none, some 4, true⟩)) ∧
    (applyTo 0 ⟨[⟨none, none, none⟩, ⟨none, none, none⟩],
        [⟨⟨true, [0, 1], [1, 1], 0⟩, none, some 4, true⟩]⟩).constrs[0]? =
      some ⟨⟨true, [0, 1], [1, 1], 0⟩, none, some 4, true⟩ :=
  ⟨(c5_non_candidate_untouched 0 [⟨none, none, none⟩, ⟨none, none, none⟩]
      ⟨⟨true, [0, 1], [1, 1], 0⟩, none, some 4, true⟩ (Or.inr (by decide))).1,
    (c5_non_candidate_untouched 0 [⟨none, none, none⟩, ⟨none, none, none⟩]
      ⟨⟨true, [0, 1], [1, 1], 0⟩, none, some 4, true⟩ (Or.inr (by decide))).2
      ⟨[⟨none, none, none⟩, ⟨none, none, none⟩],
        [⟨⟨true, [0, 1], [1, 1], 0⟩, none, some 4, true⟩]⟩ 0 rfl⟩

/-- C10: even with a degenerate (within-tolerance) coefficient, which changes
no bound, the value-repair step still runs on the referenced variable: the
processed variable is exactly the value-repair of its old state, so a value
below the pre-existing lower bound is raised to that bound (when the bounds
are compatible) and a value above the pre-existing upper bound is dropped to
that bound. -/
theorem c10_value_repair_runs_degenerate (eps coef : ℚ) (vs : List Var) (c : Constr) (vi : Nat)
    (hact : c.active = true) (hlin : c.repn.is_linear = true)
    (hvars : c.repn.linear_vars = [vi]) (hcoefs : c.repn.linear_coefs = [coef])
    (hvi : vi < vs.length) (hdeg : rabs coef ≤ eps) :
    (processConstr eps vs c).1.getD vi default = valueRepair (vs.getD vi default) ∧
    (∀ x l, (vs.getD vi default).value = some x → (vs.getD vi default).lb = some l →
      x < l → (∀ u, (vs.getD vi default).ub = some u → l ≤ u) →
      ((processConstr eps vs c).1.getD vi default).value = some l) ∧
    (∀ x u, (vs.getD vi default).value = some x → (vs.getD vi default).ub = some u →
      u < x → ((processConstr eps vs c).1.getD vi default).value = some u) := by
  have hic : isclose eps coef 0 = true := by
    simp only [isclose, sub_zero, decide_eq_true_eq]
    exact hdeg
  have hvar : (processConstr eps vs c).1.getD vi default = valueRepair (vs.getD vi default) := by
    rw [processConstr_candidate_getD eps vs c vi hact hlin hvars hvi, hcoefs]
    simp [hic]
  refine ⟨hvar, ?_, ?_⟩
  · intro x l hval hlb hx hcompat
    rw [hvar]
    exact valueRepair_value_low _ x l hval hlb hx hcompat
  · intro x u hval hub hx
    rw [hvar]
    exact valueRepair_value_high _ x u hval hub hx

/-- Witness for C10: the degenerate constraint `0*x + 5 <= 10` still lifts the
out-of-bounds value `0` of a variable with bounds `[2, 5]` up to `2`. -/
theorem c10_witness :
    ((processConstr 0 [⟨some 2, some 5, some 0⟩]
        ⟨⟨true, [0], [0], 5⟩, none, some 10, true⟩).1.getD 0 default).value = some 2 :=
  (c10_value_repair_runs_degenerate 0 0 [⟨some 2, some 5, some 0⟩]
      ⟨⟨true, [0], [0], 5⟩, none, some 10, true⟩ 0 rfl rfl rfl rfl
      (by decide) (by with_unfolding_all decide)).2.1 0 2 rfl rfl (by with_unfolding_all decide)
    (by
      intro u hu
      cases hu
      with_unfolding_all decide)

/-! Lemmas about the whole traversal. -/

theorem applyToAux_lb_tighter (eps : ℚ) (cs : List Constr) :
    ∀ (vs : List Var) (i : Nat) (x : ℚ), (vs.getD i default).lb = some x →
      ∃ y, ((applyToAux eps vs cs).1.getD i default).lb = some y ∧ x ≤ y := by
  induction cs with
  | nil =>
      intro vs i x h
      exact ⟨x, h, le_refl x⟩
  | cons c cs ih =>
      intro vs i x h
      obtain ⟨y, hy, hxy⟩ := processConstr_lb_tighter eps vs c i x h
      obtain ⟨z, hz, hyz⟩ := ih (processConstr eps vs c).1 i y hy
      exact ⟨z, hz, le_trans hxy hyz⟩

theorem applyToAux_ub_tighter (eps : ℚ) (cs : List Constr) :
    ∀ (vs : List Var) (i : Nat) (x : ℚ), (vs.getD i default).ub = some x →
      ∃ y, ((applyToAux eps vs cs).1.getD i default).ub = some y ∧ y ≤ x := by
  induction cs with
  | nil =>
      intro vs i x h
      exact ⟨x, h, le_refl x⟩
  | cons c cs ih =>
      intro vs i x h
      obtain ⟨y, hy, hxy⟩ := processConstr_ub_tighter eps vs c i x h
      obtain ⟨z, hz, hyz⟩ := ih (processConstr eps vs c).1 i y hy
      exact ⟨z, hz, le_trans hyz hxy⟩

/-- C2: monotone tightening over the whole pass — an existing lower bound is
never removed and only ever moves up, an existing upper bound is never removed
and only ever moves down. -/
theorem c2_monotone_tightening (eps : ℚ) (m : Model) (i : Nat) (x : ℚ) :
    ((m.varAt i).lb = some x → ∃ y, ((applyTo eps m).varAt i).lb = some y ∧ x ≤ y) ∧
    ((m.varAt i).ub = some x → ∃ y, ((applyTo eps m).varAt i).ub = some y ∧ y ≤ x) :=
  ⟨fun h => applyToAux_lb_tighter eps m.constrs m.vars i x h,
    fun h => applyToAux_ub_tighter eps m.constrs m.vars i x h⟩

/-- Witness for C2 on a model with one variable bounded in `[0, 10]` and the
constraint `2*x + 1 <= 5`. -/
theorem c2_witness :
    (∃ y, ((applyTo 0 ⟨[⟨some 0, some 10, none⟩],
        [⟨⟨true, [0], [2], 1⟩, none, some 5, true⟩]⟩).varAt 0).lb = some y ∧ (0 : ℚ) ≤ y) ∧
    (∃ y, ((applyTo 0 ⟨[⟨some 0, some 10, none⟩],
        [⟨⟨true, [0], [2], 1⟩, none, some 5, true⟩]⟩).varAt 0).ub = some y ∧ y ≤ 10) :=
  ⟨(c2_monotone_tightening 0 ⟨[⟨some 0, some 10, none⟩],
      [⟨⟨true, [0], [2], 1⟩, none, some 5, true⟩]⟩ 0 0).1 rfl,
    (c2_monotone_tightening 0 ⟨[⟨some 0, some 10, none⟩],
      [⟨⟨true, [0], [2], 1⟩, none, some 5, true⟩]⟩ 0 10).2 rfl⟩

theorem applyToAux_deactivates (eps : ℚ) (cs : List Constr) :
    ∀ (vs : List Var) (j : Nat) (c : Constr), cs[j]? = some c →
      c.active = true → c.repn.is_linear = true → c.repn.linear_vars.length = 1 →
      ∃ c2, (applyToAux eps vs cs).2[j]? = some c2 ∧ c2.active = false := by
  induction cs with
  | nil =>
      intro vs j c h
      simp at h
  | cons c0 cs ih =>
      intro vs j c h hact hlin hlen
      cases j with
      | zero =>
          simp only [List.getElem?_cons_zero, Option.some_inj] at h
          subst h
          obtain ⟨vi, hvars⟩ := List.length_eq_one.mp hlen
          refine ⟨(processConstr eps vs c0).2, ?_, ?_⟩
          · simp only [applyToAux_cons, List.getElem?_cons_zero]
          · rw [processConstr_candidate eps vs c0 vi hact hlin hvars]
      | succ j =>
          simp only [List.getElem?_cons_succ] at h
          simp only [applyToAux_cons, List.getElem?_cons_succ]
          exact ih (processConstr eps vs c0).1 j c h hact hlin hlen

/-- C3: every constraint that is active before the pass and whose body is
linear in exactly one distinct variable is inactive after the pass. -/
theorem c3_candidates_deactivated (eps : ℚ) (m : Model) (j : Nat) (c : Constr)
    (hj : m.constrs[j]? = some c) (hact : c.active = true)
    (hlin : c.repn.is_linear = true) (hlen : c.repn.linear_vars.length = 1) :
    ∃ c2, (applyTo eps m).constrs[j]? = some c2 ∧ c2.active = false :=
  applyToAux_deactivates eps m.constrs m.vars j c hj hact hlin hlen

/-- Witness for C3: the degenerate single-variable constraint `0*x + 5 <= 10`
is deactivated even though it yields no bound. -/
theorem c3_witness :
    ∃ c2, (applyTo 0 ⟨[⟨none, none, none⟩],
        [⟨⟨true, [0], [0], 5⟩, none, some 10, true⟩]⟩).constrs[0]? = some c2 ∧
      c2.active = false :=
  c3_candidates_deactivated 0 ⟨[⟨none, none, none⟩],
    [⟨⟨true, [0], [0], 5⟩, none, some 10, true⟩]⟩ 0
    ⟨⟨true, [0], [0], 5⟩, none, some 10, true⟩ rfl rfl rfl rfl

/-! Idempotence infrastructure: after one pass every constraint fails the
candidate test, so a second pass does nothing. -/

theorem applyToAux_skip_all (eps : ℚ) (cs : List Constr)
    (h : ∀ c ∈ cs, (c.active && c.repn.is_linear && (c.repn.linear_vars.length == 1)) = false) :
    ∀ vs, applyToAux eps vs cs = (vs, cs) := by
  induction cs with
  | nil =>
      intro vs
      rfl
  | cons c0 cs ih =>
      intro vs
      rw [applyToAux_cons, processConstr_not_candidate eps vs c0 (h c0 (by simp)),
        ih (fun c hc => h c (by simp [hc]))]

theorem applyToAux_output_inert (eps : ℚ) (cs : List Constr) :
    ∀ vs, ∀ c ∈ (applyToAux eps vs cs).2,
      (c.active && c.repn.is_linear && (c.repn.linear_vars.length == 1)) = false := by
  induction cs with
  | nil =>
      intro vs c hc
      simp [applyToAux] at hc
  | cons c0 cs ih =>
      intro vs c hc
      rw [applyToAux_cons] at hc
      rcases List.mem_cons.mp hc with rfl | hc
      · exact processConstr_snd_not_active_candidate eps vs c0
      · exact ih (processConstr eps vs c0).1 c hc

/-- C8: the pass is idempotent — applying it twice yields exactly the same
model (bounds, values and active flags) as applying it once, because the
constraints the first application deactivated are no longer active and all
remaining active constraints fail the candidate test. -/
theorem c8_idempotent (eps : ℚ) (m : Model) :
    applyTo eps (applyTo eps m) = applyTo eps m := by
  have h := applyToAux_skip_all eps (applyToAux eps m.vars m.constrs).2
    (applyToAux_output_inert eps m.constrs m.vars) (applyToAux eps m.vars m.constrs).1
  show Model.mk
      (applyToAux eps (applyToAux eps m.vars m.constrs).1 (applyToAux eps m.vars m.constrs).2).1
      (applyToAux eps (applyToAux eps m.vars m.constrs).1 (applyToAux eps m.vars m.constrs).2).2 =
    Model.mk (applyToAux eps m.vars m.constrs).1 (applyToAux eps m.vars m.constrs).2
  rw [h]

/-- C7: the copy-producing entry point leaves the input model unmodified and
returns exactly what the in-place entry point produces on the clone (and hence
on any equal model). -/
theorem c7_create_using_refines (eps : ℚ) (m : Model) :
    (createUsing eps m).1 = m ∧ (createUsing eps m).2 = applyTo eps (clone m) ∧
    (createUsing eps m).2 = applyTo eps m :=
  ⟨rfl, rfl, rfl⟩

/-! Value feasibility (C6). -/

theorem valOk_none_value (v : Var) (h : v.value = none) : ValOk v := by
  constructor
  · intro x u hx
    rw [h] at hx
    exact Option.noConfusion hx
  · intro x l hx
    rw [h] at hx
    exact Option.noConfusion hx

theorem valueRepair_le_ub (v : Var) (x u : ℚ)
    (hx : (valueRepair v).value = some x) (hur : (valueRepair v).ub = some u) : x ≤ u := by
  rw [valueRepair_ub] at hur
  obtain ⟨lb, ub, val⟩ := v
  cases lb <;> cases val <;> simp_all [valueRepair, set_value] <;>
    (try split_ifs at hx) <;> (try simp_all) <;>
    (try split_ifs at hx) <;> (try simp_all)

theorem valueRepair_ge_lb (v : Var) (x l : ℚ)
    (hx : (valueRepair v).value = some x) (hlr : (valueRepair v).lb = some l)
    (hcompat : ∀ u, (valueRepair v).ub = some u → l ≤ u) : l ≤ x := by
  rw [valueRepair_lb] at hlr
  have hcompat2 : ∀ u, v.ub = some u → l ≤ u := by
    intro u hu
    exact hcompat u (by rw [valueRepair_ub]; exact hu)
  obtain ⟨lb, ub, val⟩ := v
  cases ub <;> cases val <;> simp_all [valueRepair, set_value] <;>
    (try split_ifs at hx) <;> (try simp_all) <;>
    (try split_ifs at hx) <;> (try simp_all)

theorem valOk_valueRepair (v : Var) : ValOk (valueRepair v) :=
  ⟨fun x u hx hu => valueRepair_le_ub v x u hx hu,
    fun x l hx hl hc => valueRepair_ge_lb v x l hx hl hc⟩

theorem processConstr_fst (eps : ℚ) (vs : List Var) (c : Constr) (vi : Nat)
    (hact : c.active = true) (hlin : c.repn.is_linear = true)
    (hvars : c.repn.linear_vars = [vi]) :
    (processConstr eps vs c).1 = vs.set vi (valueRepair
      (if isclose eps (c.repn.linear_coefs.getD 0 0) 0 then vs.getD vi default
        else deriveBound (c.repn.linear_coefs.getD 0 0) c.repn.constant
          c.lower c.upper (vs.getD vi default))) := by
  rw [processConstr_candidate eps vs c vi hact hlin hvars]

theorem processConstr_target_ok (eps : ℚ) (vs : List Var) (c : Constr) (vi : Nat)
    (hact : c.active = true) (hlin : c.repn.is_linear = true)
    (hvars : c.repn.linear_vars = [vi]) :
    ValOk ((processConstr eps vs c).1.getD vi default) := by
  rcases lt_or_le vi vs.length with hlt | hle
  · rw [processConstr_candidate_getD eps vs c vi hact hlin hvars hlt]
    exact valOk_valueRepair _
  · rw [processConstr_fst eps vs c vi hact hlin hvars, List.set_eq_of_length_le hle,
      List.getD_eq_default _ _ hle]
    exact valOk_none_value _ rfl

theorem processConstr_valOk_preserved (eps : ℚ) (vs : List Var) (c : Constr) (i : Nat)
    (h : ValOk (vs.getD i default)) :
    ValOk ((processConstr eps vs c).1.getD i default) := by
  rcases processConstr_fst_getD eps vs c i with heq | heq
  · rw [heq]
    exact h
  · rw [heq]
    exact valOk_valueRepair _

theorem applyToAux_valOk_preserved (eps : ℚ) (cs : List Constr) :
    ∀ (vs : List Var) (i : Nat), ValOk (vs.getD i default) →
      ValOk ((applyToAux eps vs cs).1.getD i default) := by
  induction cs with
  | nil =>
      intro vs i h
      exact h
  | cons c0 cs ih =>
      intro vs i h
      simp only [applyToAux_cons]
      exact ih _ i (processConstr_valOk_preserved eps vs c0 i h)

theorem applyToAux_valOk_target (eps : ℚ) (cs : List Constr) :
    ∀ (vs : List Var) (vi : Nat),
      (∃ c ∈ cs, c.active = true ∧ c.repn.is_linear = true ∧ c.repn.linear_vars = [vi]) →
      ValOk ((applyToAux eps vs cs).1.getD vi default) := by
  induction cs with
  | nil =>
      intro vs vi h
      simp at h
  | cons c0 cs ih =>
      intro vs vi h
      obtain ⟨c, hc, hact, hlin, hvars⟩ := h
      simp only [applyToAux_cons]
      rcases List.mem_cons.mp hc with rfl | hmem
      · exact applyToAux_valOk_preserved eps cs _ vi
          (processConstr_target_ok eps vs c vi hact hlin hvars)
      · exact ih _ vi ⟨c, hmem, hact, hlin, hvars⟩

/-- Counterexample to C6 as stated: in a model whose only variable has value
`0` and lower bound `1` and which has no constraints, the pass leaves the
value strictly below the lower bound, because the value-repair step only runs
for variables referenced by a processed single-variable linear constraint. -/
theorem c6_counterexample :
    ((applyTo 0 ⟨[⟨some 1, none, some 0⟩], []⟩).varAt 0).value = some 0 ∧
    ((applyTo 0 ⟨[⟨some 1, none, some 0⟩], []⟩).varAt 0).lb = some 1 ∧
    ¬ ((1 : ℚ) ≤ 0) :=
  ⟨rfl, rfl, by decide⟩

/-- C6 (amended): after the pass, every variable that is the referenced
variable of at least one processed single-variable linear constraint has a
feasible value: a present value never exceeds a present upper bound, and is at
least a present lower bound whenever every present upper bound lies at or
above that lower bound.  (Variables referenced by no processed constraint may
keep a pre-existing infeasible value, and with crossing bounds `lb > ub` the
final value is the upper bound, below `lb`.) -/
theorem c6_amended_value_feasibility (eps : ℚ) (m : Model) (i : Nat)
    (htarget : ∃ c ∈ m.constrs, c.active = true ∧ c.repn.is_linear = true ∧
      c.repn.linear_vars = [i]) :
    (∀ x u, ((applyTo eps m).varAt i).value = some x →
      ((applyTo eps m).varAt i).ub = some u → x ≤ u) ∧
    (∀ x l, ((applyTo eps m).varAt i).value = some x →
      ((applyTo eps m).varAt i).lb = some l →
      (∀ u, ((applyTo eps m).varAt i).ub = some u → l ≤ u) → l ≤ x) :=
  applyToAux_valOk_target eps m.constrs m.vars i htarget

/-- Witness for the amended C6: a degenerate single-variable constraint makes
the pass repair the value `0` of a variable bounded in `[2, 5]` up to `2`,
which then satisfies `2 <= 5`. -/
theorem c6_amended_witness :
    ((applyTo 0 ⟨[⟨some 2, some 5, some 0⟩],
        [⟨⟨true, [0], [0], 5⟩, none, some 10, true⟩]⟩).varAt 0).value = some 2 ∧
    (2 : ℚ) ≤ 5 := by
  constructor
  · with_unfolding_all rfl
  · exact (c6_amended_value_feasibility 0 ⟨[⟨some 2, some 5, some 0⟩],
        [⟨⟨true, [0], [0], 5⟩, none, some 10, true⟩]⟩ 0
        ⟨⟨⟨true, [0], [0], 5⟩, none, some 10, true⟩, by simp, rfl, rfl, rfl⟩).1 2 5
      (by with_unfolding_all rfl) (by with_unfolding_all rfl)

/-! Order independence of the final bounds (C9). -/

theorem tightLb_comm (a b old : Option ℚ) :
    tightLb a (tightLb b old) = tightLb b (tightLb a old) := by
  cases a <;> cases b <;> cases old <;>
    simp [tightLb, max_comm, max_left_comm]

theorem tightUb_comm (a b old : Option ℚ) :
    tightUb a (tightUb b old) = tightUb b (tightUb a old) := by
  cases a <;> cases b <;> cases old <;>
    simp [tightUb, min_comm, min_left_comm]

/-- The effect of one loop iteration on the lower bound at each index: the
target variable's lower bound is tightened by the constraint's candidate, all
other variables keep theirs. -/
theorem processConstr_lb_step (eps : ℚ) (vs : List Var) (c : Constr) (vi : Nat)
    (hact : c.active = true) (hlin : c.repn.is_linear = true)
    (hvars : c.repn.linear_vars = [vi]) (i : Nat) :
    ((processConstr eps vs c).1.getD i default).lb =
      if i = vi ∧ vi < vs.length
      then tightLb (constrLbCand eps c) ((vs.getD i default).lb)
      else (vs.getD i default).lb := by
  by_cases h : i = vi ∧ vi < vs.length
  · obtain ⟨rfl, hlt⟩ := h
    rw [if_pos ⟨rfl, hlt⟩, processConstr_candidate_getD eps vs c i hact hlin hvars hlt,
      valueRepair_lb]
    unfold constrLbCand
    by_cases hdeg : isclose eps (c.repn.linear_coefs.getD 0 0) 0 = true
    · rw [hdeg]
      simp [tightLb]
    · simp only [Bool.not_eq_true] at hdeg
      rw [hdeg]
      simp [deriveBound_lb]
  · rw [if_neg h, processConstr_fst eps vs c vi hact hlin hvars]
    by_cases hiv : i = vi
    · subst hiv
      have hge : vs.length ≤ i := by
        by_contra hlt
        exact h ⟨rfl, Nat.lt_of_not_le hlt⟩
      rw [List.set_eq_of_length_le hge]
    · rw [getD_set_ne _ _ _ _ (Ne.symm hiv)]

/-- The effect of one loop iteration on the upper bound at each index. -/
theorem processConstr_ub_step (eps : ℚ) (vs : List Var) (c : Constr) (vi : Nat)
    (hact : c.active = true) (hlin : c.repn.is_linear = true)
    (hvars : c.repn.linear_vars = [vi]) (i : Nat) :
    ((processConstr eps vs c).1.getD i default).ub =
      if i = vi ∧ vi < vs.length
      then tightUb (constrUbCand eps c) ((vs.getD i default).ub)
      else (vs.getD i default).ub := by
  by_cases h : i = vi ∧ vi < vs.length
  · obtain ⟨rfl, hlt⟩ := h
    rw [if_pos ⟨rfl, hlt⟩, processConstr_candidate_getD eps vs c i hact hlin hvars hlt,
      valueRepair_ub]
    unfold constrUbCand
    by_cases hdeg : isclose eps (c.repn.linear_coefs.getD 0 0) 0 = true
    · rw [hdeg]
      simp [tightUb]
    · simp only [Bool.not_eq_true] at hdeg
      rw [hdeg]
      simp [deriveBound_ub]
  · rw [if_neg h, processConstr_fst eps vs c vi hact hlin hvars]
    by_cases hiv : i = vi
    · subst hiv
      have hge : vs.length ≤ i := by
        by_contra hlt
        exact h ⟨rfl, Nat.lt_of_not_le hlt⟩
      rw [List.set_eq_of_length_le hge]
    · rw [getD_set_ne _ _ _ _ (Ne.symm hiv)]

theorem tight_if_comm (f : Option ℚ → Option ℚ → Option ℚ)
    (hcomm : ∀ a b old, f a (f b old) = f b (f a old))
    (P1 P2 : Prop) [Decidable P1] [Decidable P2] (a1 a2 old : Option ℚ) :
    (if P2 then f a2 (if P1 then f a1 old else old) else if P1 then f a1 old else old) =
    (if P1 then f a1 (if P2 then f a2 old else old) else if P2 then f a2 old else old) := by
  by_cases h1 : P1 <;> by_cases h2 : P2 <;> simp [h1, h2]
  exact hcomm a2 a1 old

theorem processConstr_fst_id (eps : ℚ) (vs : List Var) (c : Constr)
    (h : (c.active && c.repn.is_linear && (c.repn.linear_vars.length == 1)) = false) :
    (processConstr eps vs c).1 = vs := by
  rw [processConstr_not_candidate eps vs c h]

theorem processConstr_swap_lb (eps : ℚ) (c1 c2 : Constr) (vs : List Var) (i : Nat) :
    ((processConstr eps (processConstr eps vs c1).1 c2).1.getD i default).lb =
      ((processConstr eps (processConstr eps vs c2).1 c1).1.getD i default).lb := by
  by_cases h1 : (c1.active && c1.repn.is_linear && (c1.repn.linear_vars.length == 1)) = true
  case neg =>
    have e1 : ∀ ws, (processConstr eps ws c1).1 = ws :=
      fun ws => processConstr_fst_id eps ws c1 (Bool.not_eq_true _ ▸ h1)
    rw [e1, e1]
  case pos =>
    by_cases h2 : (c2.active && c2.repn.is_linear && (c2.repn.linear_vars.length == 1)) = true
    case neg =>
      have e2 : ∀ ws, (processConstr eps ws c2).1 = ws :=
        fun ws => processConstr_fst_id eps ws c2 (Bool.not_eq_true _ ▸ h2)
      rw [e2, e2]
    case pos =>
      simp only [Bool.and_eq_true, beq_iff_eq] at h1 h2
      obtain ⟨⟨ha1, hl1⟩, hlen1⟩ := h1
      obtain ⟨⟨ha2, hl2⟩, hlen2⟩ := h2
      obtain ⟨v1, hv1⟩ := List.length_eq_one.mp hlen1
      obtain ⟨v2, hv2⟩ := List.length_eq_one.mp hlen2
      rw [processConstr_lb_step eps _ c2 v2 ha2 hl2 hv2 i,
        processConstr_lb_step eps _ c1 v1 ha1 hl1 hv1 i,
        processConstr_lb_step eps _ c1 v1 ha1 hl1 hv1 i,
        processConstr_lb_step eps _ c2 v2 ha2 hl2 hv2 i]
      simp only [processConstr_length]
      exact tight_if_comm tightLb tightLb_comm _ _ _ _ _

theorem processConstr_swap_ub (eps : ℚ) (c1 c2 : Constr) (vs : List Var) (i : Nat) :
    ((processConstr eps (processConstr eps vs c1).1 c2).1.getD i default).ub =
      ((processConstr eps (processConstr eps vs c2).1 c1).1.getD i default).ub := by
  by_cases h1 : (c1.active && c1.repn.is_linear && (c1.repn.linear_vars.length == 1)) = true
  case neg =>
    have e1 : ∀ ws, (processConstr eps ws c1).1 = ws :=
      fun ws => processConstr_fst_id eps ws c1 (Bool.not_eq_true _ ▸ h1)
    rw [e1, e1]
  case pos =>
    by_cases h2 : (c2.active && c2.repn.is_linear && (c2.repn.linear_vars.length == 1)) = true
    case neg =>
      have e2 : ∀ ws, (processConstr eps ws c2).1 = ws :=
        fun ws => processConstr_fst_id eps ws c2 (Bool.not_eq_true _ ▸ h2)
      rw [e2, e2]
    case pos =>
      simp only [Bool.and_eq_true, beq_iff_eq] at h1 h2
      obtain ⟨⟨ha1, hl1⟩, hlen1⟩ := h1
      obtain ⟨⟨ha2, hl2⟩, hlen2⟩ := h2
      obtain ⟨v1, hv1⟩ := List.length_eq_one.mp hlen1
      obtain ⟨v2, hv2⟩ := List.length_eq_one.mp hlen2
      rw [processConstr_ub_step eps _ c2 v2 ha2 hl2 hv2 i,
        processConstr_ub_step eps _ c1 v1 ha1 hl1 hv1 i,
        processConstr_ub_step eps _ c1 v1 ha1 hl1 hv1 i,
        processConstr_ub_step eps _ c2 v2 ha2 hl2 hv2 i]
      simp only [processConstr_length]
      exact tight_if_comm tightUb tightUb_comm _ _ _ _ _

theorem bndsEq_refl (vs : List Var) : BndsEq vs vs := by
  constructor
  · rfl
  · intro i
    exact ⟨rfl, rfl⟩

theorem bndsEq_trans {a b c : List Var} (h1 : BndsEq a b) (h2 : BndsEq b c) : BndsEq a c := by
  obtain ⟨hl1, hp1⟩ := h1
  obtain ⟨hl2, hp2⟩ := h2
  constructor
  · exact hl1.trans hl2
  · intro i
    exact ⟨(hp1 i).1.trans ((hp2 i).1), (hp1 i).2.trans ((hp2 i).2)⟩

/-- Bound evolution reads only bounds: processing the same constraint over two
stores with equal bounds yields stores with equal bounds. -/
theorem processConstr_bndsEq_congr (eps : ℚ) (c : Constr) {vs ws : List Var}
    (h : BndsEq vs ws) :
    BndsEq (processConstr eps vs c).1 (processConstr eps ws c).1 := by
  obtain ⟨hlen, hpt⟩ := h
  refine ⟨by rw [processConstr_length, processConstr_length, hlen], ?_⟩
  intro i
  by_cases hc : (c.active && c.repn.is_linear && (c.repn.linear_vars.length == 1)) = true
  · simp only [Bool.and_eq_true, beq_iff_eq] at hc
    obtain ⟨⟨hact, hlin⟩, hlen1⟩ := hc
    obtain ⟨vi, hvars⟩ := List.length_eq_one.mp hlen1
    constructor
    · rw [processConstr_lb_step eps vs c vi hact hlin hvars i,
        processConstr_lb_step eps ws c vi hact hlin hvars i, hlen]
      by_cases hcond : i = vi ∧ vi < ws.length
      · rw [if_pos hcond, if_pos hcond, (hpt i).1]
      · rw [if_neg hcond, if_neg hcond]
        exact (hpt i).1
    · rw [processConstr_ub_step eps vs c vi hact hlin hvars i,
        processConstr_ub_step eps ws c vi hact hlin hvars i, hlen]
      by_cases hcond : i = vi ∧ vi < ws.length
      · rw [if_pos hcond, if_pos hcond, (hpt i).2]
      · rw [if_neg hcond, if_neg hcond]
        exact (hpt i).2
  · rw [processConstr_fst_id eps vs c (Bool.not_eq_true _ ▸ hc),
      processConstr_fst_id eps ws c (Bool.not_eq_true _ ▸ hc)]
    exact hpt i

theorem applyToAux_bndsEq_congr (eps : ℚ) (cs : List Constr) :
    ∀ {vs ws : List Var}, BndsEq vs ws →
      BndsEq (applyToAux eps vs cs).1 (applyToAux eps ws cs).1 := by
  induction cs with
  | nil =>
      intro vs ws h
      exact h
  | cons c0 cs ih =>
      intro vs ws h
      simp only [applyToAux_cons]
      exact ih (processConstr_bndsEq_congr eps c0 h)

theorem processConstr_swap_bndsEq (eps : ℚ) (c1 c2 : Constr) (vs : List Var) :
    BndsEq (processConstr eps (processConstr eps vs c1).1 c2).1
      (processConstr eps (processConstr eps vs c2).1 c1).1 := by
  constructor
  · simp [processConstr_length]
  · intro i
    exact ⟨processConstr_swap_lb eps c1 c2 vs i, processConstr_swap_ub eps c1 c2 vs i⟩

theorem applyToAux_perm_bndsEq (eps : ℚ) {cs1 cs2 : List Constr} (hp : cs1.Perm cs2) :
    ∀ vs : List Var, BndsEq (applyToAux eps vs cs1).1 (applyToAux eps vs cs2).1 := by
  induction hp with
  | nil =>
      intro vs
      exact bndsEq_refl _
  | cons c _ ih =>
      intro vs
      simp only [applyToAux_cons]
      exact ih _
  | swap x y l =>
      intro vs
      simp only [applyToAux_cons]
      exact applyToAux_bndsEq_congr eps l (processConstr_swap_bndsEq eps y x vs)
  | trans _ _ ih1 ih2 =>
      intro vs
      exact bndsEq_trans (ih1 vs) (ih2 vs)

/-- C9: the final bounds do not depend on the order in which the constraints
are visited — for any two permutations of the same constraint list, every
variable ends with the same lower and the same upper bound. -/
theorem c9_order_independence (eps : ℚ) (vs : List Var) (cs1 cs2 : List Constr)
    (hp : cs1.Perm cs2) (i : Nat) :
    ((applyTo eps ⟨vs, cs1⟩).varAt i).lb = ((applyTo eps ⟨vs, cs2⟩).varAt i).lb ∧
    ((applyTo eps ⟨vs, cs1⟩).varAt i).ub = ((applyTo eps ⟨vs, cs2⟩).varAt i).ub :=
  (applyToAux_perm_bndsEq eps hp vs).2 i

/-- Witness for C9: swapping the two constraints `2*x + 1 <= 5` and
`1 <= -1*x + 3` yields the same final bounds for `x`. -/
theorem c9_witness :
    (((applyTo 0 ⟨[⟨none, none, none⟩],
        [⟨⟨true, [0], [2], 1⟩, none, some 5, true⟩,
          ⟨⟨true, [0], [-1], 3⟩, some 1, none, true⟩]⟩).varAt 0).lb =
      ((applyTo 0 ⟨[⟨none, none, none⟩],
        [⟨⟨true, [0], [-1], 3⟩, some 1, none, true⟩,
          ⟨⟨true, [0], [2], 1⟩, none, some 5, true⟩]⟩).varAt 0).lb) ∧
    (((applyTo 0 ⟨[⟨none, none, none⟩],
        [⟨⟨true, [0], [2], 1⟩, none, some 5, true⟩,
          ⟨⟨true, [0], [-1], 3⟩, some 1, none, true⟩]⟩).varAt 0).ub =
      ((applyTo 0 ⟨[⟨none, none, none⟩],
        [⟨⟨true, [0], [-1], 3⟩, some 1, none, true⟩,
          ⟨⟨true, [0], [2], 1⟩, none, some 5, true⟩]⟩).varAt 0).ub) :=
  c9_order_independence 0 [⟨none, none, none⟩]
    [⟨⟨true, [0], [2], 1⟩, none, some 5, true⟩,
      ⟨⟨true, [0], [-1], 3⟩, some 1, none, true⟩]
    [⟨⟨true, [0], [-1], 3⟩, some 1, none, true⟩,
      ⟨⟨true, [0], [2], 1⟩, none, some 5, true⟩]
    (List.Perm.swap (⟨⟨true, [0], [-1], 3⟩, some 1, none, true⟩ : Constr)
      (⟨⟨true, [0], [2], 1⟩, none, some 5, true⟩ : Constr) []) 0

end BoundsToVars
